import Mathlib

/-!
# canu: meryl bucket hashing and bogart unitig paths

A shallow embedding of `src/meryl/meryl.H` (the `merylArgs` bucket plan, the
`PERSONALITY_*` codes) and of `src/bogart/AS_BAT_Unitig.H` (`SeqInterval`,
`ufNode`, `Unitig`), with the properties proved about them.

Machine integers are natural numbers or integers; where a counter of the
source is a `uint32` its wrap-around is written out with `% 2 ^ 32`.
-/

namespace Canu

/-! ## meryl: k-mers and the bucket plan -/

/-- A k-mer as `merylArgs::hash` sees it: the length `merSize` in symbols and
the packed word `md`, two bits per symbol. -/
structure kMer where
  merSize : Nat
  md : Nat
deriving DecidableEq, Repr

/-- A k-mer of length `k`: its length field is `k` and its word fits in
`2 * k` bits. -/
def kMer.hasLength (mer : kMer) (k : Nat) : Prop :=
  mer.merSize = k ∧ mer.md < 2 ^ (2 * k)

instance (mer : kMer) (k : Nat) : Decidable (mer.hasLength k) := by
  unfold kMer.hasLength
  exact inferInstance

/-- Modelled from the spec: `kMer::startOfMer` lives in `kMer.H`, which is not
among the sources. The spec gives the bucket index as the high-order bits of
the word: the top `bits` bits of the `2 * merSize`-bit word. -/
def kMer.startOfMer (mer : kMer) (bits : Nat) : Nat :=
  mer.md >>> (2 * mer.merSize - bits)

/-- The fields of `merylArgs` that make up the bucket plan (meryl.H 106-122). -/
structure merylArgs where
  merSize : Nat
  numBuckets : Nat
  numBuckets_log2 : Nat
  merDataWidth : Nat
  merDataMask : Nat
  personality : Nat
deriving DecidableEq, Repr

/-- The method `merylArgs::hash` (meryl.H 87-89). -/
def merylArgs.hash (args : merylArgs) (mer : kMer) : Nat :=
  mer.startOfMer args.numBuckets_log2

/-! ## meryl: the personality codes (meryl.H 59-76) -/

def PERSONALITY_MERGE : Nat := 0xff

def PERSONALITY_MIN : Nat := 0x01

def PERSONALITY_MINEXIST : Nat := 0x02

def PERSONALITY_MAX : Nat := 0x03

def PERSONALITY_MAXEXIST : Nat := 0x04

def PERSONALITY_ADD : Nat := 0x05

def PERSONALITY_SUB : Nat := 0x06

def PERSONALITY_DIVIDE : Nat := 0x07

def PERSONALITY_ABS : Nat := 0x08

def PERSONALITY_AND : Nat := 0x10

def PERSONALITY_NAND : Nat := 0x11

def PERSONALITY_OR : Nat := 0x12

def PERSONALITY_XOR : Nat := 0x13

def PERSONALITY_LEQ : Nat := 0x14

def PERSONALITY_GEQ : Nat := 0x15

def PERSONALITY_EQ : Nat := 0x16

/-- The sixteen combination rules of the spec's table (section 4.5). -/
inductive Personality where
  | merge | min | minExist | max | maxExist | add | subtract | divide | abs
  | and | nand | or | xor | leq | geq | eq
deriving DecidableEq, Repr

/-- The `PERSONALITY_*` code of each rule of the table. -/
def Personality.code : Personality → Nat
  | .merge => PERSONALITY_MERGE
  | .min => PERSONALITY_MIN
  | .minExist => PERSONALITY_MINEXIST
  | .max => PERSONALITY_MAX
  | .maxExist => PERSONALITY_MAXEXIST
  | .add => PERSONALITY_ADD
  | .subtract => PERSONALITY_SUB
  | .divide => PERSONALITY_DIVIDE
  | .abs => PERSONALITY_ABS
  | .and => PERSONALITY_AND
  | .nand => PERSONALITY_NAND
  | .or => PERSONALITY_OR
  | .xor => PERSONALITY_XOR
  | .leq => PERSONALITY_LEQ
  | .geq => PERSONALITY_GEQ
  | .eq => PERSONALITY_EQ

/-- Every rule of the table, in the table's order with `merge` first. -/
def Personality.all : List Personality :=
  [.merge, .min, .minExist, .max, .maxExist, .add, .subtract, .divide, .abs,
   .and, .nand, .or, .xor, .leq, .geq, .eq]

/-- The rules that a value of `merylArgs::personality` selects. -/
def merylArgs.selected (args : merylArgs) : List Personality :=
  Personality.all.filter (fun p => p.code == args.personality)

/-! ## meryl: the bucket planner (spec section 4.2) -/

/-- The sizes the spec leaves to the configuration: the bits of a count and
the bits of a position list. -/
structure EntryLayout where
  countBits : Nat
  positionBits : Nat
deriving DecidableEq, Repr

/-- Modelled from the spec: `optimalNumberOfBuckets` is only declared in meryl.H
(168-171), its body is not among the sources. Section 4.2 gives the per-entry
size as suffix bits + count bits + optional position-list bits, the suffix being
the `2 * wordLength - b` bits that bucket selection leaves. -/
def entrySize (lay : EntryLayout) (wordLength b : Nat) (positionsEnabled : Bool) : Nat :=
  (2 * wordLength - b) + lay.countBits + (if positionsEnabled then lay.positionBits else 0)

/-- Modelled from the spec: the estimated entries per bucket when `wordCount`
words are spread over `2 ^ b` buckets, rounded up. -/
def entriesPerBucket (wordCount b : Nat) : Nat :=
  (wordCount + 2 ^ b - 1) / 2 ^ b

/-- Modelled from the spec: section 4.2's test that `b` bucket bits fit the
budget: entries per bucket × per-entry size × threadCount ≤ memoryBudget. -/
def fitsBudget (lay : EntryLayout) (wordLength wordCount memoryBudget threadCount : Nat)
    (positionsEnabled : Bool) (b : Nat) : Bool :=
  decide (entriesPerBucket wordCount b * entrySize lay wordLength b positionsEnabled
    * threadCount ≤ memoryBudget)

/-- The smallest `b' ≥ b` among the next `fuel` values that satisfies `p`. -/
def leastFrom (p : Nat → Bool) : Nat → Nat → Option Nat
  | 0, _ => none
  | fuel + 1, b => if p b then some b else leastFrom p fuel (b + 1)

/-- Modelled from the spec: section 4.2 chooses bucketCountLog2 as the smallest
integer that fits the budget, from 0 (one bucket) up to the `2 * wordLength`
bits of a word; `none` is the spec's `InsufficientMemory`. -/
def planBucketCountLog2 (lay : EntryLayout)
    (wordLength wordCount memoryBudget threadCount : Nat) (positionsEnabled : Bool) :
    Option Nat :=
  leastFrom (fitsBudget lay wordLength wordCount memoryBudget threadCount positionsEnabled)
    (2 * wordLength + 1) 0

/-- Modelled from the spec: `estimateBucketCount`, the number of buckets of the
plan, a power of two; `none` is the spec's `InsufficientMemory`. -/
def estimateBucketCount (lay : EntryLayout)
    (wordLength wordCount memoryBudget threadCount : Nat) (positionsEnabled : Bool) :
    Option Nat :=
  (planBucketCountLog2 lay wordLength wordCount memoryBudget threadCount
    positionsEnabled).map (fun b => 2 ^ b)

/-- The order on estimates: a plan that failed with `InsufficientMemory` is above
every bucket count. -/
def estimateLe : Option Nat → Option Nat → Prop
  | some a, some b => a ≤ b
  | _, none => True
  | none, some _ => False

instance (x y : Option Nat) : Decidable (estimateLe x y) := by
  cases x <;> cases y <;> unfold estimateLe <;> exact inferInstance

/-! ## meryl: the set-algebra engine under `add` (spec sections 3 and 4.5) -/

/-- Modelled from the spec: a bucket entry is a suffix and its count (section 3),
a count that saturates at the configured maximum; the optional position list
plays no part in the count rules and is left out. -/
structure BucketEntry where
  suffix : Nat
  count : Nat
deriving DecidableEq, Repr

/-- Modelled from the spec: a bucket is an ordered sequence of entries. -/
abbrev Bucket := List BucketEntry

/-- Modelled from the spec: the bucket plan of section 3. -/
structure BucketPlan where
  bucketCountLog2 : Nat
  suffixWidthBits : Nat
  bucketPointerWidthBits : Nat
deriving DecidableEq, Repr

/-- Modelled from the spec: the strand mode of section 4.1. -/
inductive StrandMode where
  | forwardOnly | reverseOnly | canonical
deriving DecidableEq, Repr

/-- Modelled from the spec: a persisted index is a plan, a word length, a strand
mode and one bucket per bucket index (section 3). -/
structure PersistedIndex where
  plan : BucketPlan
  wordLength : Nat
  strandMode : StrandMode
  buckets : List Bucket
deriving DecidableEq, Repr

/-- The errors of section 7 that `combine` can report, and `NoInput` for a call
without an input index. -/
inductive CombineError where
  | IncompatibleIndex
  | CorruptIndex
  | NoInput
deriving DecidableEq, Repr

/-- Within one bucket, entries are sorted by suffix with unique suffixes. -/
def Bucket.sorted (b : Bucket) : Prop :=
  b.Pairwise (fun x y => x.suffix < y.suffix)

instance (b : Bucket) : Decidable (Bucket.sorted b) := by
  unfold Bucket.sorted
  exact inferInstance

/-- The count stored for suffix `k` in a bucket, 0 when `k` has no entry. -/
def Bucket.countOf (k : Nat) (b : Bucket) : Nat :=
  ((b.filter (fun e => e.suffix == k)).map BucketEntry.count).sum

/-- Whether suffix `k` has an entry in a bucket. -/
def Bucket.hasKey (k : Nat) (b : Bucket) : Bool :=
  b.any (fun e => e.suffix == k)

/-- The bucket of an index at bucket index `i`. -/
def PersistedIndex.bucket (x : PersistedIndex) (i : Nat) : Bucket :=
  x.buckets.getD i []

/-- A well-formed index: one bucket per bucket index, each sorted by suffix with
unique suffixes (section 3); an index that is not so is the `CorruptIndex` of
section 7. -/
def PersistedIndex.wellFormed (x : PersistedIndex) : Prop :=
  x.buckets.length = 2 ^ x.plan.bucketCountLog2 ∧ ∀ b ∈ x.buckets, Bucket.sorted b

instance (x : PersistedIndex) : Decidable x.wellFormed := by
  unfold PersistedIndex.wellFormed
  exact inferInstance

/-- Two indexes are compatible when they share plan, word length and strand
mode (sections 4.5 and 7). -/
def PersistedIndex.compatible (x y : PersistedIndex) : Bool :=
  x.plan == y.plan && x.wordLength == y.wordLength && x.strandMode == y.strandMode

/-- Modelled from the spec: the smallest suffix at the front of any input of the
synchronized sorted-order scan of section 4.5. -/
def minHead : List Bucket → Option Nat
  | [] => none
  | [] :: rest => minHead rest
  | (e :: _) :: rest =>
    match minHead rest with
    | none => some e.suffix
    | some m => some (min e.suffix m)

/-- Modelled from the spec: what one input gives to the count of suffix `k`: the
count of its front entry when that entry has suffix `k`. -/
def frontCount (k : Nat) : Bucket → Nat
  | [] => 0
  | e :: _ => if e.suffix = k then e.count else 0

/-- Modelled from the spec: the `add` rule, the sum of the counts of the inputs
whose front entry has suffix `k`, saturated at the configured maximum
`maxCount` (sections 3, 4.3 and 7: counts saturate, they do not overflow). -/
def sumHeads (maxCount k : Nat) (ins : List Bucket) : Nat :=
  Nat.min (ins.map (frontCount k)).sum maxCount

/-- Modelled from the spec: step one input past its front entry when that entry
has suffix `k`. -/
def advanceOne (k : Nat) : Bucket → Bucket
  | [] => []
  | e :: es => if e.suffix = k then es else e :: es

/-- Modelled from the spec: step every input whose front entry has suffix `k`. -/
def advance (k : Nat) (ins : List Bucket) : List Bucket :=
  ins.map (advanceOne k)

/-- The entries still to be read in the inputs of a scan. -/
def totalEntries (ins : List Bucket) : Nat :=
  (ins.map List.length).sum

/-- Modelled from the spec: the synchronized sorted-order scan under `add`: one
output entry per suffix at the front of the inputs, smallest first. -/
def scanAdd (maxCount : Nat) : Nat → List Bucket → Bucket
  | 0, _ => []
  | fuel + 1, ins =>
    match minHead ins with
    | none => []
    | some k => ⟨k, sumHeads maxCount k ins⟩ :: scanAdd maxCount fuel (advance k ins)

/-- Modelled from the spec: one bucket of the output of `combine(add, ...)`. -/
def combineBucketAdd (maxCount : Nat) (ins : List Bucket) : Bucket :=
  scanAdd maxCount (totalEntries ins) ins

/-- Modelled from the spec: `combine(add, inputIndexes)` of section 4.5, the body
of `multipleOperations` under `PERSONALITY_ADD`, which meryl.H only declares
(176), with the configured maximum count `maxCount`. Inputs that do not share
plan, word length and strand mode fail with `IncompatibleIndex`; an input that
is not well-formed fails with `CorruptIndex`; otherwise the output has the
shared plan and, for each bucket index, the scan of the inputs' buckets at that
index. -/
def combineAdd (maxCount : Nat) : List PersistedIndex → Except CombineError PersistedIndex
  | [] => .error .NoInput
  | x :: rest =>
    if rest.all (fun y => x.compatible y) then
      if (x :: rest).all (fun y => decide y.wellFormed) then
        .ok { plan := x.plan, wordLength := x.wordLength, strandMode := x.strandMode,
              buckets := (List.range (2 ^ x.plan.bucketCountLog2)).map
                (fun i => combineBucketAdd maxCount ((x :: rest).map (fun y => y.bucket i))) }
      else .error .CorruptIndex
    else .error .IncompatibleIndex

/-! ## bogart: intervals, reads and tigs (AS_BAT_Unitig.H) -/

/-- The class `SeqInterval` (53-87): signed begin and end coordinates. -/
structure SeqInterval where
  bgn : Int
  «end» : Int
deriving DecidableEq, Repr

/-- The method `SeqInterval::min` (63). -/
def SeqInterval.min (p : SeqInterval) : Int := Min.min p.bgn p.«end»

/-- The method `SeqInterval::max` (64). -/
def SeqInterval.max (p : SeqInterval) : Int := Max.max p.bgn p.«end»

/-- The class `ufNode` (102-131). -/
structure ufNode where
  ident : Nat
  contained : Nat
  parent : Nat
  ahang : Int
  bhang : Int
  position : SeqInterval
deriving DecidableEq, Repr

/-- The comparison `ufNode::operator<` (116-130). -/
def ufNode.lt (a that : ufNode) : Bool :=
  let abgn := if a.position.bgn < a.position.«end» then a.position.bgn else a.position.«end»
  let aend := if a.position.bgn < a.position.«end» then a.position.«end» else a.position.bgn
  let bbgn := if that.position.bgn < that.position.«end» then that.position.bgn
    else that.position.«end»
  let bend := if that.position.bgn < that.position.«end» then that.position.«end»
    else that.position.bgn
  if abgn < bbgn then true
  else if abgn > bbgn then false
  else if aend < bend then false
  else if aend > bend then true
  else false

/-- The members of `Unitig` (137-289) that the operations below read or write;
the `_vector` pointer is passed to `sort` as the tig vector itself. -/
structure Unitig where
  ufpath : List ufNode
  _length : Int
  _id : Nat
  _isUnassembled : Nat
  _isBubble : Nat
  _isRepeat : Nat
  _isCircular : Nat
deriving DecidableEq, Repr

/-- The constructor `Unitig::Unitig` (139-148); `ufpath` starts empty. -/
def Unitig.new : Unitig :=
  { ufpath := [], _length := 0, _id := 0,
    _isUnassembled := 0, _isBubble := 0, _isRepeat := 0, _isCircular := 0 }

/-- The method `Unitig::id` (171). -/
def Unitig.id (t : Unitig) : Nat := t._id

/-- The method `Unitig::getLength` (173). -/
def Unitig.getLength (t : Unitig) : Int := t._length

/-- The method `Unitig::type` (282-288). -/
def Unitig.type (t : Unitig) : Char :=
  if t._isUnassembled ≠ 0 then 'U'
  else if t._isBubble ≠ 0 then 'B'
  else if t._isRepeat ≠ 0 then 'R'
  else if t._isCircular ≠ 0 then 'C'
  else 'N'

/-- How a method of `Unitig` can fail to return: a failed `assert`, an access
outside `ufpath`, or a loop that does not end within its bound. -/
inductive Fault where
  | assertion
  | outOfRange
  | noFuel
deriving DecidableEq, Repr

/-- The `min()` of the read that the pointer `rd` (an index of `ufpath`) points to. -/
def readMin (ufpath : List ufNode) (rd : Nat) : Option Int :=
  (ufpath[rd]?).map (fun r => r.position.min)

/-- The `max()` of the read that the pointer `rd` (an index of `ufpath`) points to. -/
def readMax (ufpath : List ufNode) (rd : Nat) : Option Int :=
  (ufpath[rd]?).map (fun r => r.position.max)

/-- The loop of `Unitig::firstRead` (229-230), from its test on: `fi` is the
`uint32` counter and `rd5` the index of `ufpath` that the pointer holds. -/
def firstReadLoop (ufpath : List ufNode) : Nat → Nat → Nat → Except Fault Nat
  | 0, _, _ => .error .noFuel
  | fuel + 1, fi, rd5 =>
    if fi < ufpath.length then
      match readMin ufpath rd5 with
      | none => .error .outOfRange
      | some m =>
        if m ≠ 0 then firstReadLoop ufpath fuel ((fi + 1) % 2 ^ 32) fi
        else .ok rd5
    else .ok rd5

/-- The scan of `Unitig::firstRead` (227-230): the index `rd5` points to when
the loop ends. -/
def Unitig.firstReadScan (t : Unitig) : Except Fault Nat :=
  if t.ufpath.length = 0 then .error .outOfRange
  else firstReadLoop t.ufpath t.ufpath.length 1 0

/-- The method `Unitig::firstRead` (226-235): the scan, then the assertion. -/
def Unitig.firstRead (t : Unitig) : Except Fault Nat :=
  match t.firstReadScan with
  | .error f => .error f
  | .ok rd5 =>
    match readMin t.ufpath rd5 with
    | none => .error .outOfRange
    | some m => if m = 0 then .ok rd5 else .error .assertion

/-- The loop of `Unitig::lastRead` (242-243), from its test on: `fi-- > 0`
compares the old counter and then decrements it modulo `2 ^ 32`; the body
points `rd3` at `ufpath[fi]` with the decremented counter. -/
def lastReadLoop (ufpath : List ufNode) (len : Int) : Nat → Nat → Nat → Except Fault Nat
  | 0, _, _ => .error .noFuel
  | fuel + 1, fi, rd3 =>
    if fi > 0 then
      match readMax ufpath rd3 with
      | none => .error .outOfRange
      | some m =>
        if m ≠ len then
          if (fi + 2 ^ 32 - 1) % 2 ^ 32 < ufpath.length then
            lastReadLoop ufpath len fuel ((fi + 2 ^ 32 - 1) % 2 ^ 32)
              ((fi + 2 ^ 32 - 1) % 2 ^ 32)
          else .error .outOfRange
        else .ok rd3
    else .ok rd3

/-- The scan of `Unitig::lastRead` (240-243): the index `rd3` points to when the
loop ends. The counter starts at `ufpath.size() - 1` cut to 32 bits. -/
def Unitig.lastReadScan (t : Unitig) : Except Fault Nat :=
  if t.ufpath.length = 0 then .error .outOfRange
  else lastReadLoop t.ufpath t.getLength t.ufpath.length
    ((t.ufpath.length - 1) % 2 ^ 32) (t.ufpath.length - 1)

/-- The method `Unitig::lastRead` (239-248): the scan, then the assertion. -/
def Unitig.lastRead (t : Unitig) : Except Fault Nat :=
  match t.lastReadScan with
  | .error f => .error f
  | .ok rd3 =>
    match readMax t.ufpath rd3 with
    | none => .error .outOfRange
    | some m => if m = t.getLength then .ok rd3 else .error .assertion

/-- C1: `merylArgs::hash(mer)` is `mer.startOfMer(numBuckets_log2)`, which for a
mer of length `merSize` is its word shifted right by
`2 * merSize - numBuckets_log2`; when `numBuckets_log2 ≤ 2 * merSize` and
`numBuckets = 2 ^ numBuckets_log2` the result is a bucket index below
`numBuckets`. -/
theorem hash_is_high_bits_and_in_range (args : merylArgs) (mer : kMer)
    (hlen : mer.hasLength args.merSize) :
    args.hash mer = mer.startOfMer args.numBuckets_log2 ∧
    args.hash mer = mer.md >>> (2 * args.merSize - args.numBuckets_log2) ∧
    (args.numBuckets_log2 ≤ 2 * args.merSize →
      args.numBuckets = 2 ^ args.numBuckets_log2 →
      0 ≤ args.hash mer ∧ args.hash mer < args.numBuckets) := by
  obtain ⟨hk, hlt⟩ := hlen
  refine ⟨rfl, ?_, ?_⟩
  · simp [merylArgs.hash, kMer.startOfMer, hk]
  · intro hle hnb
    refine ⟨Nat.zero_le _, ?_⟩
    simp only [merylArgs.hash, kMer.startOfMer, hk, hnb, Nat.shiftRight_eq_div_pow]
    rw [Nat.div_lt_iff_lt_mul (Nat.pos_pow_of_pos _ (by decide))]
    rw [← pow_add]
    have : args.numBuckets_log2 + (2 * args.merSize - args.numBuckets_log2)
        = 2 * args.merSize := by omega
    rw [this]
    exact hlt

/-- A witness for C1: the 3-mer with word 45 under a plan of 4 bucket bits. -/
theorem hash_is_high_bits_and_in_range_witness :
    merylArgs.hash ⟨3, 16, 4, 2, 3, 5⟩ ⟨3, 45⟩ = 11 ∧
    (0 ≤ merylArgs.hash ⟨3, 16, 4, 2, 3, 5⟩ ⟨3, 45⟩ ∧
      merylArgs.hash ⟨3, 16, 4, 2, 3, 5⟩ ⟨3, 45⟩ < 16) :=
  ⟨by decide,
   (hash_is_high_bits_and_in_range ⟨3, 16, 4, 2, 3, 5⟩ ⟨3, 45⟩ (by decide)).2.2
     (by decide) (by decide)⟩

/-- C2: under the plan invariant `numBuckets_log2 + merDataWidth = 2 * merSize`
with `merDataMask = 2 ^ merDataWidth - 1`, a word is its bucket index times
`2 ^ merDataWidth` plus its masked suffix, so two mers of length `merSize`
with the same bucket index and the same suffix have the same word. -/
theorem hash_and_suffix_determine_word (args : merylArgs)
    (hinv : args.numBuckets_log2 + args.merDataWidth = 2 * args.merSize)
    (hmask : args.merDataMask = 2 ^ args.merDataWidth - 1) :
    (∀ mer : kMer, mer.hasLength args.merSize →
      mer.md = args.hash mer * 2 ^ args.merDataWidth + (mer.md &&& args.merDataMask)) ∧
    (∀ m1 m2 : kMer, m1.hasLength args.merSize → m2.hasLength args.merSize →
      args.hash m1 = args.hash m2 →
      (m1.md &&& args.merDataMask) = (m2.md &&& args.merDataMask) →
      m1.md = m2.md) := by
  have hdec : ∀ mer : kMer, mer.hasLength args.merSize →
      mer.md = args.hash mer * 2 ^ args.merDataWidth + (mer.md &&& args.merDataMask) := by
    intro mer hlen
    obtain ⟨hk, _⟩ := hlen
    have hsh : 2 * mer.merSize - args.numBuckets_log2 = args.merDataWidth := by
      rw [hk]; omega
    simp only [merylArgs.hash, kMer.startOfMer, hsh, hmask, Nat.shiftRight_eq_div_pow,
      Nat.and_pow_two_sub_one_eq_mod]
    rw [Nat.mul_comm]
    exact (Nat.div_add_mod _ _).symm
  refine ⟨hdec, ?_⟩
  intro m1 m2 h1 h2 hh hs
  rw [hdec m1 h1, hdec m2 h2, hh, hs]

/-- A witness for C2: two 3-mers under a plan of 4 bucket bits and 2 suffix bits. -/
theorem hash_and_suffix_determine_word_witness :
    (45 : Nat) = merylArgs.hash ⟨3, 16, 4, 2, 3, 5⟩ ⟨3, 45⟩ * 2 ^ 2 + (45 &&& 3) :=
  (hash_and_suffix_determine_word ⟨3, 16, 4, 2, 3, 5⟩ (by decide) (by decide)).1
    ⟨3, 45⟩ (by decide)

/-! ## meryl: the bucket planner is monotone -/

theorem entriesPerBucket_mono (b : Nat) {n n' : Nat} (h : n ≤ n') :
    entriesPerBucket n b ≤ entriesPerBucket n' b := by
  unfold entriesPerBucket
  apply Nat.div_le_div_right
  omega

theorem fitsBudget_wordCount (lay : EntryLayout) (wordLength memoryBudget threadCount : Nat)
    (positionsEnabled : Bool) {n n' : Nat} (h : n ≤ n') (b : Nat)
    (hfit : fitsBudget lay wordLength n' memoryBudget threadCount positionsEnabled b = true) :
    fitsBudget lay wordLength n memoryBudget threadCount positionsEnabled b = true := by
  simp only [fitsBudget, decide_eq_true_eq] at hfit ⊢
  refine le_trans ?_ hfit
  exact Nat.mul_le_mul_right _ (Nat.mul_le_mul_right _ (entriesPerBucket_mono b h))

theorem fitsBudget_memoryBudget (lay : EntryLayout) (wordLength wordCount threadCount : Nat)
    (positionsEnabled : Bool) {m m' : Nat} (h : m ≤ m') (b : Nat)
    (hfit : fitsBudget lay wordLength wordCount m threadCount positionsEnabled b = true) :
    fitsBudget lay wordLength wordCount m' threadCount positionsEnabled b = true := by
  simp only [fitsBudget, decide_eq_true_eq] at hfit ⊢
  exact le_trans hfit h

/-- A search with the weaker test stops no later. -/
theorem leastFrom_le_of_imp (p q : Nat → Bool) (hpq : ∀ b, q b = true → p b = true) :
    ∀ fuel b, estimateLe ((leastFrom p fuel b).map (fun c => 2 ^ c))
      ((leastFrom q fuel b).map (fun c => 2 ^ c)) := by
  intro fuel
  induction fuel with
  | zero => intro b; simp [leastFrom, estimateLe]
  | succ fuel ih =>
    intro b
    simp only [leastFrom]
    by_cases hq : q b = true
    · simp [hq, hpq b hq, estimateLe]
    · by_cases hp : p b = true
      · simp only [hp, hq, if_true, if_false, Option.map_some', Bool.false_eq_true]
        have hfound : ∀ f c, (leastFrom q f c = none) ∨ (∃ r, leastFrom q f c = some r ∧ c ≤ r) := by
          intro f
          induction f with
          | zero => intro c; left; rfl
          | succ f ihf =>
            intro c
            simp only [leastFrom]
            by_cases hc : q c = true
            · right; exact ⟨c, by simp [hc], le_refl _⟩
            · simp only [hc, if_false, Bool.false_eq_true]
              rcases ihf (c + 1) with h | ⟨r, hr, hle⟩
              · left; exact h
              · right; exact ⟨r, hr, by omega⟩
        rcases hfound fuel (b + 1) with h | ⟨r, hr, hle⟩
        · simp [h, estimateLe]
        · simp only [hr, Option.map_some', estimateLe]
          exact Nat.pow_le_pow_right (by decide) (by omega)
      · simp only [hp, hq, if_false, Bool.false_eq_true]
        exact ih (b + 1)

/-- C3: the bucket-count estimator is non-decreasing in the word count for a
fixed memory budget and non-increasing in the memory budget for a fixed word
count, an estimate that failed with `InsufficientMemory` counting as above
every bucket count. -/
theorem estimateBucketCount_monotone (lay : EntryLayout) (wordLength threadCount : Nat)
    (positionsEnabled : Bool) :
    (∀ memoryBudget n n' : Nat, n ≤ n' →
      estimateLe
        (estimateBucketCount lay wordLength n memoryBudget threadCount positionsEnabled)
        (estimateBucketCount lay wordLength n' memoryBudget threadCount positionsEnabled)) ∧
    (∀ wordCount m m' : Nat, m ≤ m' →
      estimateLe
        (estimateBucketCount lay wordLength wordCount m' threadCount positionsEnabled)
        (estimateBucketCount lay wordLength wordCount m threadCount positionsEnabled)) := by
  constructor
  · intro memoryBudget n n' h
    exact leastFrom_le_of_imp _ _
      (fitsBudget_wordCount lay wordLength memoryBudget threadCount positionsEnabled h) _ _
  · intro wordCount m m' h
    exact leastFrom_le_of_imp _ _
      (fitsBudget_memoryBudget lay wordLength wordCount threadCount positionsEnabled h) _ _

/-- A witness for C3: 3-mers, one thread, 8 count bits; 100 against 220 words at
a budget of 300, and a budget of 100 against 300 at 100 words. -/
theorem estimateBucketCount_monotone_witness :
    estimateLe (estimateBucketCount ⟨8, 32⟩ 3 100 300 1 false)
      (estimateBucketCount ⟨8, 32⟩ 3 220 300 1 false) ∧
    estimateLe (estimateBucketCount ⟨8, 32⟩ 3 100 300 1 false)
      (estimateBucketCount ⟨8, 32⟩ 3 100 100 1 false) :=
  ⟨(estimateBucketCount_monotone ⟨8, 32⟩ 3 1 false).1 300 100 220 (by decide),
   (estimateBucketCount_monotone ⟨8, 32⟩ 3 1 false).2 100 100 300 (by decide)⟩

/-! ## meryl: the personality codes are distinct -/

/-- C10: each of the sixteen personalities of the combination table has a
`PERSONALITY_*` code, a 32-bit value, the sixteen codes are pairwise distinct,
and a value of `merylArgs::personality` selects at most one rule. -/
theorem personality_codes_distinct :
    Personality.all.length = 16 ∧
    (∀ p : Personality, p ∈ Personality.all ∧ p.code < 2 ^ 32) ∧
    (Personality.all.map Personality.code).Nodup ∧
    (∀ p q : Personality, p.code = q.code → p = q) ∧
    (∀ args : merylArgs, args.selected.length ≤ 1) := by
  have hinj : ∀ p q : Personality, p.code = q.code → p = q := by
    intro p q
    cases p <;> cases q <;> decide
  refine ⟨rfl, ?_, by decide, hinj, ?_⟩
  · intro p
    cases p <;> decide
  · intro args
    have hnd : Personality.all.Nodup := by decide
    have hsel : (merylArgs.selected args).Nodup := hnd.filter _
    rw [Nat.le_one_iff_eq_zero_or_eq_one]
    match hm : merylArgs.selected args with
    | [] => simp
    | [_] => simp
    | p :: q :: rest =>
      exfalso
      have hp : p ∈ merylArgs.selected args := by rw [hm]; simp
      have hq : q ∈ merylArgs.selected args := by rw [hm]; simp
      simp only [merylArgs.selected, List.mem_filter, beq_iff_eq] at hp hq
      have hpq : p = q := hinj p q (by rw [hp.2, hq.2])
      rw [hm, hpq] at hsel
      simp at hsel

/-- A witness for C10: `add` has the code 5, which selects `add` alone. -/
theorem personality_codes_distinct_witness :
    Personality.add.code = Personality.add.code ∧ Personality.add = Personality.add ∧
    (merylArgs.selected ⟨3, 16, 4, 2, 3, 5⟩).length ≤ 1 :=
  ⟨rfl, personality_codes_distinct.2.2.2.1 Personality.add Personality.add rfl,
   personality_codes_distinct.2.2.2.2 ⟨3, 16, 4, 2, 3, 5⟩⟩

/-! ## bogart: the order of reads and the class of a tig -/

theorem ufNode_lt_eq (a b : ufNode) :
    a.lt b = decide (a.position.min < b.position.min ∨
      (a.position.min = b.position.min ∧ a.position.max > b.position.max)) := by
  simp only [ufNode.lt, SeqInterval.min, SeqInterval.max, min_def, max_def]
  rw [Bool.eq_iff_iff]
  simp only [decide_eq_true_eq]
  split_ifs <;> simp <;> omega

/-- C7: `a < b` holds exactly when `a` starts before `b`, or they start together
and `a` ends after `b`, whatever the orientations; nodes with equal minima and
equal maxima are not less than each other. -/
theorem ufNode_lt_iff (a b : ufNode) :
    (a.lt b = true ↔ (a.position.min < b.position.min ∨
      (a.position.min = b.position.min ∧ a.position.max > b.position.max))) ∧
    (a.position.min = b.position.min → a.position.max = b.position.max →
      a.lt b = false ∧ b.lt a = false) ∧
    ufNode.lt { a with position := ⟨a.position.«end», a.position.bgn⟩ } b = a.lt b ∧
    ufNode.lt a { b with position := ⟨b.position.«end», b.position.bgn⟩ } = a.lt b := by
  refine ⟨by rw [ufNode_lt_eq]; simp, ?_, ?_, ?_⟩
  · intro hmin hmax
    rw [ufNode_lt_eq, ufNode_lt_eq]
    simp only [decide_eq_false_iff_not]
    constructor <;> omega
  · rw [ufNode_lt_eq, ufNode_lt_eq]
    simp only [SeqInterval.min, SeqInterval.max, min_comm, max_comm]
  · rw [ufNode_lt_eq, ufNode_lt_eq]
    simp only [SeqInterval.min, SeqInterval.max, min_comm, max_comm]

/-- A witness for C7: a forward read over 0..7 and a reverse read over 7..0. -/
theorem ufNode_lt_iff_witness :
    ufNode.lt ⟨1, 0, 0, 0, 0, ⟨0, 7⟩⟩ ⟨2, 0, 0, 0, 0, ⟨7, 0⟩⟩ = false ∧
    ufNode.lt ⟨2, 0, 0, 0, 0, ⟨7, 0⟩⟩ ⟨1, 0, 0, 0, 0, ⟨0, 7⟩⟩ = false :=
  (ufNode_lt_iff ⟨1, 0, 0, 0, 0, ⟨0, 7⟩⟩ ⟨2, 0, 0, 0, 0, ⟨7, 0⟩⟩).2.1 (by decide) (by decide)

/-- C9: `type()` returns 'U' when `_isUnassembled` is non-zero, else 'B' when
`_isBubble` is, else 'R' when `_isRepeat` is, else 'C' when `_isCircular` is,
and 'N' exactly when all four are zero; a tig as its constructor leaves it has
type 'N', length 0 and id 0. -/
theorem type_by_priority (t : Unitig) :
    (t._isUnassembled ≠ 0 → t.type = 'U') ∧
    (t._isUnassembled = 0 → t._isBubble ≠ 0 → t.type = 'B') ∧
    (t._isUnassembled = 0 → t._isBubble = 0 → t._isRepeat ≠ 0 → t.type = 'R') ∧
    (t._isUnassembled = 0 → t._isBubble = 0 → t._isRepeat = 0 → t._isCircular ≠ 0 →
      t.type = 'C') ∧
    (t.type = 'N' ↔ (t._isUnassembled = 0 ∧ t._isBubble = 0 ∧ t._isRepeat = 0 ∧
      t._isCircular = 0)) ∧
    Unitig.new.type = 'N' ∧ Unitig.new.getLength = 0 ∧ Unitig.new.id = 0 := by
  refine ⟨?_, ?_, ?_, ?_, ?_, rfl, rfl, rfl⟩
  · intro h; simp [Unitig.type, h]
  · intro h1 h2; simp [Unitig.type, h1, h2]
  · intro h1 h2 h3; simp [Unitig.type, h1, h2, h3]
  · intro h1 h2 h3 h4; simp [Unitig.type, h1, h2, h3, h4]
  · unfold Unitig.type
    split_ifs with h1 h2 h3 h4
    · simp [h1]
    · simp [h2]
    · simp [h3]
    · simp [h4]
    · simp only [ne_eq, not_not] at h1 h2 h3 h4
      simp [h1, h2, h3, h4]

/-- A witness for C9: a tig flagged both unassembled and bubble is 'U', one
flagged bubble and circular is 'B'. -/
theorem type_by_priority_witness :
    Unitig.type { Unitig.new with _isUnassembled := 1, _isBubble := 1 } = 'U' ∧
    Unitig.type { Unitig.new with _isBubble := 2, _isCircular := 1 } = 'B' :=
  ⟨(type_by_priority { Unitig.new with _isUnassembled := 1, _isBubble := 1 }).1 (by decide),
   (type_by_priority { Unitig.new with _isBubble := 2, _isCircular := 1 }).2.1
     (by decide) (by decide)⟩

/-! ## bogart: the reads at the two ends of a tig -/

theorem readMin_isSome (ufpath : List ufNode) {rd : Nat} (h : rd < ufpath.length) :
    ∃ m, readMin ufpath rd = some m := by
  simp [readMin, List.getElem?_eq_getElem h]

theorem readMax_isSome (ufpath : List ufNode) {rd : Nat} (h : rd < ufpath.length) :
    ∃ m, readMax ufpath rd = some m := by
  simp [readMax, List.getElem?_eq_getElem h]

/-- The forward loop, entered with the pointer at `rd5` and the counter one
ahead, stops at the first index from `rd5` on that has `min() == 0`, or at the
last index when there is none. -/
theorem firstReadLoop_eq (ufpath : List ufNode) (hsz : ufpath.length < 2 ^ 32) (r : Nat)
    (hr : r < ufpath.length)
    (hstop : readMin ufpath r = some 0 ∨ r + 1 = ufpath.length) :
    ∀ fuel rd5, rd5 ≤ r → ufpath.length ≤ fuel + rd5 →
      (∀ j, rd5 ≤ j → j < r → readMin ufpath j ≠ some 0) →
      firstReadLoop ufpath fuel (rd5 + 1) rd5 = .ok r := by
  intro fuel
  induction fuel with
  | zero => intro rd5 h1 h2 _; omega
  | succ fuel ih =>
    intro rd5 h1 h2 hskip
    obtain ⟨m, hm⟩ := readMin_isSome ufpath (lt_of_le_of_lt h1 hr)
    simp only [firstReadLoop, hm]
    by_cases hfi : rd5 + 1 < ufpath.length
    · simp only [hfi, if_true]
      by_cases hm0 : m = 0
      · have hrd : rd5 = r := by
          by_contra hne
          exact hskip rd5 (le_refl _) (by omega) (by rw [hm, hm0])
        simp [hm0, hrd]
      · have hlt : rd5 < r := by
          rcases hstop with h0 | hlast
          · by_contra hge
            have hrd : rd5 = r := by omega
            rw [hrd, h0] at hm
            exact hm0 (Option.some.inj hm).symm
          · omega
        have hmod : (rd5 + 1 + 1) % 2 ^ 32 = rd5 + 1 + 1 := Nat.mod_eq_of_lt (by omega)
        simp only [ne_eq, hm0, not_false_eq_true, if_true, hmod]
        exact ih (rd5 + 1) (by omega) (by omega)
          (fun j hj1 hj2 => hskip j (by omega) hj2)
    · have hrd : rd5 = r := by omega
      subst hrd
      simp [hfi]

/-- The backward loop, entered with pointer and counter at `rd3`, stops at the
first index from `rd3` down that has `max()` equal to `len`, or at index 0 when
there is none. -/
theorem lastReadLoop_eq (ufpath : List ufNode) (len : Int) (hsz : ufpath.length < 2 ^ 32)
    (r : Nat) (hstop : readMax ufpath r = some len ∨ r = 0) :
    ∀ fuel rd3, r ≤ rd3 → rd3 < ufpath.length → rd3 < fuel →
      (∀ j, r < j → j ≤ rd3 → readMax ufpath j ≠ some len) →
      lastReadLoop ufpath len fuel rd3 rd3 = .ok r := by
  intro fuel
  induction fuel with
  | zero => intro rd3 _ _ h3 _; omega
  | succ fuel ih =>
    intro rd3 h1 h2 h3 hskip
    obtain ⟨m, hm⟩ := readMax_isSome ufpath h2
    simp only [lastReadLoop, hm]
    by_cases hfi : rd3 > 0
    · simp only [hfi, if_true]
      by_cases hml : m = len
      · have hrd : rd3 = r := by
          by_contra hne
          exact hskip rd3 (by omega) (le_refl _) (by rw [hm, hml])
        simp [hml, hrd]
      · have hlt : r < rd3 := by
          rcases hstop with h0 | h0
          · by_contra hge
            have hrd : rd3 = r := by omega
            rw [hrd, h0] at hm
            exact hml (Option.some.inj hm).symm
          · omega
        have hmod : (rd3 + 2 ^ 32 - 1) % 2 ^ 32 = rd3 - 1 := by
          have : rd3 + 2 ^ 32 - 1 = (rd3 - 1) + 2 ^ 32 := by omega
          rw [this, Nat.add_mod_right]
          exact Nat.mod_eq_of_lt (by omega)
        have hin : rd3 - 1 < ufpath.length := by omega
        simp only [ne_eq, hml, not_false_eq_true, if_true, hmod, hin]
        exact ih (rd3 - 1) (by omega) hin (by omega)
          (fun j hj1 hj2 => hskip j hj1 (by omega))
    · have hrd : rd3 = r := by omega
      subst hrd
      simp [hfi]

/-- C5: for a non-empty `ufpath` (its size a `uint32`) with a read whose
`position.min()` is 0, `firstRead()` returns the lowest index of `ufpath` whose
read has `position.min() == 0`, the assertion holding; with no such read the
scan ends on the last element and the assertion fails. -/
theorem firstRead_returns_lowest_start (t : Unitig) (hne : t.ufpath ≠ [])
    (hsz : t.ufpath.length < 2 ^ 32) :
    ((∃ j, j < t.ufpath.length ∧ readMin t.ufpath j = some 0) →
      ∃ i, t.firstRead = .ok i ∧ i < t.ufpath.length ∧ readMin t.ufpath i = some 0 ∧
        ∀ j, j < i → readMin t.ufpath j ≠ some 0) ∧
    ((∀ j, j < t.ufpath.length → readMin t.ufpath j ≠ some 0) →
      t.firstReadScan = .ok (t.ufpath.length - 1) ∧ t.firstRead = .error .assertion) := by
  have hpos : 0 < t.ufpath.length := List.length_pos.mpr hne
  have hlen0 : ¬ t.ufpath.length = 0 := by omega
  constructor
  · intro hex
    classical
    have hfind := Nat.find_spec hex
    have hmin := fun j (hj : j < Nat.find hex) => Nat.find_min hex hj
    refine ⟨Nat.find hex, ?_, hfind.1, hfind.2, ?_⟩
    · have hscan : t.firstReadScan = .ok (Nat.find hex) := by
        simp only [Unitig.firstReadScan, hlen0, if_false]
        exact firstReadLoop_eq t.ufpath hsz _ hfind.1 (Or.inl hfind.2) _ 0 (Nat.zero_le _)
          (by omega) (fun j _ hj hj0 => hmin j hj ⟨by omega, hj0⟩)
      simp [Unitig.firstRead, hscan, hfind.2]
    · intro j hj hj0
      exact hmin j hj ⟨by omega, hj0⟩
  · intro hnone
    have hscan : t.firstReadScan = .ok (t.ufpath.length - 1) := by
      simp only [Unitig.firstReadScan, hlen0, if_false]
      exact firstReadLoop_eq t.ufpath hsz _ (by omega) (Or.inr (by omega)) _ 0
        (Nat.zero_le _) (by omega) (fun j _ hj => hnone j (by omega))
    refine ⟨hscan, ?_⟩
    obtain ⟨m, hm⟩ := readMin_isSome t.ufpath (show t.ufpath.length - 1 < t.ufpath.length by omega)
    have hm0 : m ≠ 0 := by
      intro h0
      exact hnone (t.ufpath.length - 1) (by omega) (by rw [hm, h0])
    simp [Unitig.firstRead, hscan, hm, hm0]

/-- C6: for a non-empty `ufpath` (its size a `uint32`) with a read whose
`position.max()` is `getLength()`, `lastRead()` returns the highest index of
`ufpath` whose read has `position.max() == getLength()`, index 0 included, the
assertion holding; with no such read the scan has gone down to index 0 and the
assertion fails; the method never reads outside `ufpath`. -/
theorem lastRead_returns_highest_end (t : Unitig) (hne : t.ufpath ≠ [])
    (hsz : t.ufpath.length < 2 ^ 32) :
    ((∃ j, j < t.ufpath.length ∧ readMax t.ufpath j = some t.getLength) →
      ∃ i, t.lastRead = .ok i ∧ i < t.ufpath.length ∧
        readMax t.ufpath i = some t.getLength ∧
        ∀ j, i < j → j < t.ufpath.length → readMax t.ufpath j ≠ some t.getLength) ∧
    ((∀ j, j < t.ufpath.length → readMax t.ufpath j ≠ some t.getLength) →
      t.lastReadScan = .ok 0 ∧ t.lastRead = .error .assertion) ∧
    t.lastRead ≠ .error .outOfRange ∧ t.lastRead ≠ .error .noFuel := by
  have hpos : 0 < t.ufpath.length := List.length_pos.mpr hne
  have hlen0 : ¬ t.ufpath.length = 0 := by omega
  have hmod : (t.ufpath.length - 1) % 2 ^ 32 = t.ufpath.length - 1 :=
    Nat.mod_eq_of_lt (by omega)
  have hfound : (∃ j, j < t.ufpath.length ∧ readMax t.ufpath j = some t.getLength) →
      ∃ i, t.lastRead = .ok i ∧ i < t.ufpath.length ∧
        readMax t.ufpath i = some t.getLength ∧
        ∀ j, i < j → j < t.ufpath.length → readMax t.ufpath j ≠ some t.getLength := by
    intro hex
    classical
    -- the highest matching index is found from the top: search on the distance from the end
    have hex2 : ∃ d, d < t.ufpath.length ∧
        readMax t.ufpath (t.ufpath.length - 1 - d) = some t.getLength := by
      obtain ⟨j, hj, hjm⟩ := hex
      refine ⟨t.ufpath.length - 1 - j, by omega, ?_⟩
      have : t.ufpath.length - 1 - (t.ufpath.length - 1 - j) = j := by omega
      rw [this]; exact hjm
    have hfind := Nat.find_spec hex2
    have hmin := fun d (hd : d < Nat.find hex2) => Nat.find_min hex2 hd
    have hskip : ∀ j, t.ufpath.length - 1 - Nat.find hex2 < j → j < t.ufpath.length →
        readMax t.ufpath j ≠ some t.getLength := by
      intro j hj1 hj2 hjm
      apply hmin (t.ufpath.length - 1 - j) (by omega)
      refine ⟨by omega, ?_⟩
      have : t.ufpath.length - 1 - (t.ufpath.length - 1 - j) = j := by omega
      rw [this]; exact hjm
    refine ⟨t.ufpath.length - 1 - Nat.find hex2, ?_, by omega, hfind.2, hskip⟩
    have hscan : t.lastReadScan = .ok (t.ufpath.length - 1 - Nat.find hex2) := by
      simp only [Unitig.lastReadScan, hlen0, if_false, hmod]
      exact lastReadLoop_eq t.ufpath t.getLength hsz _ (Or.inl hfind.2) _ _ (by omega)
        (by omega) (by omega) (fun j hj1 hj2 => hskip j hj1 (by omega))
    simp [Unitig.lastRead, hscan, hfind.2]
  have hnone : (∀ j, j < t.ufpath.length → readMax t.ufpath j ≠ some t.getLength) →
      t.lastReadScan = .ok 0 ∧ t.lastRead = .error .assertion := by
    intro hnone
    have hscan : t.lastReadScan = .ok 0 := by
      simp only [Unitig.lastReadScan, hlen0, if_false, hmod]
      exact lastReadLoop_eq t.ufpath t.getLength hsz 0 (Or.inr rfl) _ _ (Nat.zero_le _)
        (by omega) (by omega) (fun j _ hj2 => hnone j (by omega))
    refine ⟨hscan, ?_⟩
    obtain ⟨m, hm⟩ := readMax_isSome t.ufpath hpos
    have hm0 : m ≠ t.getLength := by
      intro h0
      exact hnone 0 hpos (by rw [hm, h0])
    simp [Unitig.lastRead, hscan, hm, hm0]
  refine ⟨hfound, hnone, ?_⟩
  by_cases hex : ∃ j, j < t.ufpath.length ∧ readMax t.ufpath j = some t.getLength
  · obtain ⟨i, hi, _⟩ := hfound hex
    rw [hi]
    constructor <;> intro h <;> cases h
  · have hall : ∀ j, j < t.ufpath.length → readMax t.ufpath j ≠ some t.getLength :=
      fun j hj hjm => hex ⟨j, hj, hjm⟩
    rw [(hnone hall).2]
    constructor <;> intro h <;> cases h

/-- A witness for C5: five reads, the first with `min() == 0` at index 1. -/
theorem firstRead_returns_lowest_start_witness :
    ∃ i, Unitig.firstRead ⟨[⟨1, 0, 0, 0, 0, ⟨5, 2⟩⟩, ⟨2, 0, 0, 0, 0, ⟨10, 0⟩⟩,
        ⟨3, 0, 0, 0, 0, ⟨0, 7⟩⟩, ⟨4, 0, 0, 0, 0, ⟨3, 10⟩⟩], 10, 7, 0, 0, 0, 0⟩ = .ok i ∧
      i < 4 ∧
      readMin [⟨1, 0, 0, 0, 0, ⟨5, 2⟩⟩, ⟨2, 0, 0, 0, 0, ⟨10, 0⟩⟩,
        ⟨3, 0, 0, 0, 0, ⟨0, 7⟩⟩, ⟨4, 0, 0, 0, 0, ⟨3, 10⟩⟩] i = some 0 ∧
      ∀ j, j < i → readMin [⟨1, 0, 0, 0, 0, ⟨5, 2⟩⟩, ⟨2, 0, 0, 0, 0, ⟨10, 0⟩⟩,
        ⟨3, 0, 0, 0, 0, ⟨0, 7⟩⟩, ⟨4, 0, 0, 0, 0, ⟨3, 10⟩⟩] j ≠ some 0 :=
  (firstRead_returns_lowest_start ⟨[⟨1, 0, 0, 0, 0, ⟨5, 2⟩⟩, ⟨2, 0, 0, 0, 0, ⟨10, 0⟩⟩,
      ⟨3, 0, 0, 0, 0, ⟨0, 7⟩⟩, ⟨4, 0, 0, 0, 0, ⟨3, 10⟩⟩], 10, 7, 0, 0, 0, 0⟩
    (by decide) (by decide)).1 ⟨2, by decide, by decide⟩

/-- A witness for C6: four reads of a tig of length 10, the only read with
`max() == 10` at index 0. -/
theorem lastRead_returns_highest_end_witness :
    ∃ i, Unitig.lastRead ⟨[⟨2, 0, 0, 0, 0, ⟨10, 0⟩⟩, ⟨1, 0, 0, 0, 0, ⟨5, 2⟩⟩,
        ⟨3, 0, 0, 0, 0, ⟨1, 7⟩⟩, ⟨4, 0, 0, 0, 0, ⟨3, 9⟩⟩], 10, 7, 0, 0, 0, 0⟩ = .ok i ∧
      i < 4 ∧
      readMax [⟨2, 0, 0, 0, 0, ⟨10, 0⟩⟩, ⟨1, 0, 0, 0, 0, ⟨5, 2⟩⟩,
        ⟨3, 0, 0, 0, 0, ⟨1, 7⟩⟩, ⟨4, 0, 0, 0, 0, ⟨3, 9⟩⟩] i = some 10 ∧
      ∀ j, i < j → j < 4 → readMax [⟨2, 0, 0, 0, 0, ⟨10, 0⟩⟩, ⟨1, 0, 0, 0, 0, ⟨5, 2⟩⟩,
        ⟨3, 0, 0, 0, 0, ⟨1, 7⟩⟩, ⟨4, 0, 0, 0, 0, ⟨3, 9⟩⟩] j ≠ some 10 :=
  (lastRead_returns_highest_end ⟨[⟨2, 0, 0, 0, 0, ⟨10, 0⟩⟩, ⟨1, 0, 0, 0, 0, ⟨5, 2⟩⟩,
      ⟨3, 0, 0, 0, 0, ⟨1, 7⟩⟩, ⟨4, 0, 0, 0, 0, ⟨3, 9⟩⟩], 10, 7, 0, 0, 0, 0⟩
    (by decide) (by decide)).1 ⟨0, by decide, by decide⟩

/-! ## bogart: sorting the path of a tig -/

/-- The suffix that `minHead` returns is at the front of one of the inputs. -/
theorem minHead_attained : ∀ (ins : List Bucket) (m : Nat), minHead ins = some m →
    ∃ b ∈ ins, ∃ e es, b = e :: es ∧ e.suffix = m := by
  intro ins
  induction ins with
  | nil => intro m h; simp [minHead] at h
  | cons b rest ih =>
    intro m h
    cases b with
    | nil =>
      simp only [minHead] at h
      obtain ⟨b, hb, e, es, hbe, hm⟩ := ih m h
      exact ⟨b, List.mem_cons_of_mem _ hb, e, es, hbe, hm⟩
    | cons e es =>
      simp only [minHead] at h
      cases hr : minHead rest with
      | none =>
        rw [hr] at h
        exact ⟨e :: es, List.mem_cons_self _ _, e, es, rfl, Option.some.inj h⟩
      | some m1 =>
        rw [hr] at h
        have hm : min e.suffix m1 = m := Option.some.inj h
        by_cases hle : e.suffix ≤ m1
        · exact ⟨e :: es, List.mem_cons_self _ _, e, es, rfl, by rw [← hm, min_eq_left hle]⟩
        · obtain ⟨b, hb, e1, es1, hbe, hm1⟩ := ih m1 hr
          refine ⟨b, List.mem_cons_of_mem _ hb, e1, es1, hbe, ?_⟩
          rw [hm1, ← hm, min_eq_right (by omega)]

/-- With no front entry left, every input is empty. -/
theorem minHead_none : ∀ (ins : List Bucket), minHead ins = none → ∀ b ∈ ins, b = [] := by
  intro ins
  induction ins with
  | nil => intro _ x hx; cases hx
  | cons y ys ih =>
    intro hn x hx
    cases y with
    | nil =>
      simp only [minHead] at hn
      rcases List.mem_cons.mp hx with h1 | h1
      · exact h1
      · exact ih hn x h1
    | cons z zs =>
      simp only [minHead] at hn
      cases hq : minHead ys <;> rw [hq] at hn <;> cases hn

/-- The suffix that `minHead` returns is at most the suffix at any front. -/
theorem minHead_le_front : ∀ (ins : List Bucket) (m : Nat), minHead ins = some m →
    ∀ b ∈ ins, ∀ e es, b = e :: es → m ≤ e.suffix := by
  intro ins
  induction ins with
  | nil => intro m h; simp [minHead] at h
  | cons b0 rest ih =>
    intro m h b hb e es hbe
    cases b0 with
    | nil =>
      simp only [minHead] at h
      rcases List.mem_cons.mp hb with hb0 | hbr
      · rw [hbe] at hb0; cases hb0
      · exact ih m h b hbr e es hbe
    | cons e0 es0 =>
      simp only [minHead] at h
      cases hr : minHead rest with
      | none =>
        rw [hr] at h
        have hm : e0.suffix = m := Option.some.inj h
        rcases List.mem_cons.mp hb with hb0 | hbr
        · rw [hbe] at hb0
          have : e = e0 := (List.cons.inj hb0).1
          rw [this, hm]
        · exfalso
          have := minHead_none rest hr b hbr
          rw [hbe] at this
          cases this
      | some m1 =>
        rw [hr] at h
        have hm : min e0.suffix m1 = m := Option.some.inj h
        rcases List.mem_cons.mp hb with hb0 | hbr
        · rw [hbe] at hb0
          have : e = e0 := (List.cons.inj hb0).1
          rw [this, ← hm]
          exact min_le_left _ _
        · have := ih m1 hr b hbr e es hbe
          rw [← hm]
          exact le_trans (min_le_right _ _) this

theorem advanceOne_length_le (k : Nat) (b : Bucket) : (advanceOne k b).length ≤ b.length := by
  cases b with
  | nil => simp [advanceOne]
  | cons e es =>
    simp only [advanceOne]
    split_ifs <;> simp

theorem advanceOne_subset (k : Nat) (b : Bucket) : ∀ e ∈ advanceOne k b, e ∈ b := by
  intro e he
  cases b with
  | nil => simp [advanceOne] at he
  | cons x xs =>
    simp only [advanceOne] at he
    split_ifs at he
    · exact List.mem_cons_of_mem _ he
    · exact he

theorem totalEntries_advance_le (k : Nat) (ins : List Bucket) :
    totalEntries (advance k ins) ≤ totalEntries ins := by
  induction ins with
  | nil => simp [advance, totalEntries]
  | cons b rest ih =>
    simp only [advance, totalEntries, List.map_cons, List.sum_cons] at ih ⊢
    have := advanceOne_length_le k b
    omega

/-- A step of the scan consumes an entry. -/
theorem totalEntries_advance_lt (ins : List Bucket) (m : Nat) (h : minHead ins = some m) :
    totalEntries (advance m ins) < totalEntries ins := by
  obtain ⟨b, hb, e, es, hbe, hm⟩ := minHead_attained ins m h
  clear h
  induction ins with
  | nil => cases hb
  | cons b0 rest ih =>
    simp only [advance, totalEntries, List.map_cons, List.sum_cons]
    have hle := totalEntries_advance_le m rest
    simp only [advance, totalEntries] at hle
    rcases List.mem_cons.mp hb with hb0 | hbr
    · rw [← hb0, hbe]
      simp only [advanceOne, hm, if_true, List.length_cons]
      omega
    · have := ih hbr
      simp only [advance, totalEntries] at this
      have := advanceOne_length_le m b0
      omega

theorem countOf_nil (k : Nat) : Bucket.countOf k [] = 0 := rfl

theorem countOf_cons (k : Nat) (e : BucketEntry) (es : Bucket) :
    Bucket.countOf k (e :: es) = (if e.suffix = k then e.count else 0) + Bucket.countOf k es := by
  unfold Bucket.countOf
  by_cases h : e.suffix = k
  · simp [List.filter_cons, h]
  · simp [List.filter_cons, h]

theorem hasKey_cons (k : Nat) (e : BucketEntry) (es : Bucket) :
    Bucket.hasKey k (e :: es) = (decide (e.suffix = k) || Bucket.hasKey k es) := by
  by_cases h : e.suffix = k <;> simp [Bucket.hasKey, h]

/-- A step of the scan moves the count of suffix `k` from the fronts of the
inputs to the output entry, and changes no other count. -/
theorem countOf_advanceOne (m k : Nat) (b : Bucket) :
    Bucket.countOf k b
      = (if m = k then frontCount m b else 0) + Bucket.countOf k (advanceOne m b) := by
  cases b with
  | nil => simp [frontCount, advanceOne, countOf_nil]
  | cons e es =>
    simp only [frontCount, advanceOne, countOf_cons]
    by_cases h1 : e.suffix = m
    · by_cases h2 : m = k
      · simp [h1, h2]
      · have h3 : ¬ e.suffix = k := by rw [h1]; exact h2
        simp [h1, h2, h3]
    · by_cases h2 : m = k
      · have h3 : ¬ e.suffix = k := by rw [← h2]; exact h1
        simp [h1, h2, h3, countOf_cons]
      · simp [h1, h2, countOf_cons]

theorem hasKey_advanceOne (m k : Nat) (b : Bucket) :
    Bucket.hasKey k b = true ↔
      ((m = k ∧ ∃ e es, b = e :: es ∧ e.suffix = m) ∨
        Bucket.hasKey k (advanceOne m b) = true) := by
  cases b with
  | nil => simp [Bucket.hasKey, advanceOne]
  | cons e es =>
    simp only [advanceOne, hasKey_cons]
    by_cases h1 : e.suffix = m
    · by_cases h2 : m = k
      · simp [h1, h2]
      · have h3 : ¬ e.suffix = k := by rw [h1]; exact h2
        simp [h1, h2, h3]
    · by_cases h2 : m = k
      · have h3 : ¬ e.suffix = k := by rw [← h2]; exact h1
        simp [h1, h2, h3, hasKey_cons]
      · simp [h1, h2, hasKey_cons]

/-- A step of the scan on the smallest front suffix `m`: suffix `k` is in an
input exactly when it is `m` or is in an input after the step. -/
theorem any_hasKey_advance (ins : List Bucket) (m k : Nat) (hm : minHead ins = some m) :
    ins.any (Bucket.hasKey k) = (decide (m = k) || (advance m ins).any (Bucket.hasKey k)) := by
  rw [Bool.eq_iff_iff]
  simp only [List.any_eq_true, Bool.or_eq_true, decide_eq_true_eq, advance, List.mem_map]
  constructor
  · rintro ⟨b, hb, hk⟩
    rcases (hasKey_advanceOne m k b).mp hk with ⟨h, _⟩ | h
    · exact Or.inl h
    · exact Or.inr ⟨advanceOne m b, ⟨b, hb, rfl⟩, h⟩
  · rintro (h | ⟨b1, ⟨b, hb, rfl⟩, hk⟩)
    · obtain ⟨b, hb, e, es, hbe, hem⟩ := minHead_attained ins m hm
      refine ⟨b, hb, ?_⟩
      rw [hbe, hasKey_cons, hem, h]
      simp
    · exact ⟨b, hb, (hasKey_advanceOne m k b).mpr (Or.inr hk)⟩

/-- The scan makes an entry for every suffix of the inputs and for no other. -/
theorem hasKey_scanAdd (maxCount k : Nat) : ∀ (fuel : Nat) (ins : List Bucket),
    totalEntries ins ≤ fuel →
    Bucket.hasKey k (scanAdd maxCount fuel ins) = ins.any (Bucket.hasKey k) := by
  intro fuel
  induction fuel with
  | zero =>
    intro ins h
    cases hm : minHead ins with
    | none =>
      have hall := minHead_none ins hm
      have : ins.any (Bucket.hasKey k) = false := by
        rw [List.any_eq_false]
        intro b hb
        rw [hall b hb]
        simp [Bucket.hasKey]
      simp [scanAdd, this, Bucket.hasKey]
    | some m =>
      have := totalEntries_advance_lt ins m hm
      omega
  | succ fuel ih =>
    intro ins h
    simp only [scanAdd]
    cases hm : minHead ins with
    | none =>
      have hall := minHead_none ins hm
      have : ins.any (Bucket.hasKey k) = false := by
        rw [List.any_eq_false]
        intro b hb
        rw [hall b hb]
        simp [Bucket.hasKey]
      simp [this, Bucket.hasKey]
    | some m =>
      have hlt := totalEntries_advance_lt ins m hm
      simp only [hasKey_cons]
      rw [ih (advance m ins) (by omega), any_hasKey_advance ins m k hm]

theorem sorted_advanceOne (m : Nat) (b : Bucket) (h : Bucket.sorted b) :
    Bucket.sorted (advanceOne m b) := by
  cases b with
  | nil => exact h
  | cons e es =>
    simp only [advanceOne]
    split_ifs
    · exact (List.pairwise_cons.mp h).2
    · exact h

/-- Every suffix of the output of the scan is a suffix of an input. -/
theorem scanAdd_suffix_mem (maxCount : Nat) :
    ∀ (fuel : Nat) (ins : List Bucket) (e : BucketEntry),
    e ∈ scanAdd maxCount fuel ins → ∃ b ∈ ins, ∃ e1 ∈ b, e1.suffix = e.suffix := by
  intro fuel
  induction fuel with
  | zero => intro ins e he; simp [scanAdd] at he
  | succ fuel ih =>
    intro ins e he
    simp only [scanAdd] at he
    cases hm : minHead ins with
    | none => rw [hm] at he; simp at he
    | some m =>
      rw [hm] at he
      rcases List.mem_cons.mp he with h0 | h1
      · obtain ⟨b, hb, e1, es, hbe, hem⟩ := minHead_attained ins m hm
        refine ⟨b, hb, e1, by rw [hbe]; exact List.mem_cons_self _ _, ?_⟩
        rw [hem, h0]
      · obtain ⟨b1, hb1, e1, he1, hs⟩ := ih (advance m ins) e h1
        simp only [advance, List.mem_map] at hb1
        obtain ⟨b, hb, rfl⟩ := hb1
        exact ⟨b, hb, e1, advanceOne_subset m b e1 he1, hs⟩

/-- After a step on the smallest front suffix `m` of sorted inputs, every entry
left has a suffix above `m`. -/
theorem advance_above (ins : List Bucket) (m : Nat) (hm : minHead ins = some m)
    (hs : ∀ b ∈ ins, Bucket.sorted b) :
    ∀ b ∈ advance m ins, ∀ e ∈ b, m < e.suffix := by
  intro b1 hb1 e he
  simp only [advance, List.mem_map] at hb1
  obtain ⟨b, hb, rfl⟩ := hb1
  cases b with
  | nil => simp [advanceOne] at he
  | cons x xs =>
    have hle := minHead_le_front ins m hm (x :: xs) hb x xs rfl
    have hsx := List.pairwise_cons.mp (hs (x :: xs) hb)
    simp only [advanceOne] at he
    split_ifs at he with hx
    · have := hsx.1 e he
      omega
    · rcases List.mem_cons.mp he with h0 | h1
      · rw [h0]; omega
      · have := hsx.1 e h1
        omega

theorem sum_countOf_advance (m k : Nat) (ins : List Bucket) :
    (ins.map (Bucket.countOf k)).sum
      = (if m = k then (ins.map (frontCount m)).sum else 0)
        + ((advance m ins).map (Bucket.countOf k)).sum := by
  induction ins with
  | nil => simp [advance]
  | cons b rest ih =>
    simp only [advance, List.map_cons, List.sum_cons] at ih ⊢
    rw [ih, countOf_advanceOne m k b]
    by_cases h : m = k
    · simp only [h, if_true]; omega
    · simp only [h, if_false]; omega

/-- A bucket without an entry of suffix `k` has count 0 for `k`. -/
theorem countOf_eq_zero (k : Nat) (b : Bucket) (h : ∀ e ∈ b, e.suffix ≠ k) :
    Bucket.countOf k b = 0 := by
  induction b with
  | nil => rfl
  | cons e es ih =>
    rw [countOf_cons, ih (fun x hx => h x (List.mem_cons_of_mem _ hx))]
    simp [h e (List.mem_cons_self _ _)]

/-- After a step on the smallest front suffix `m` of sorted inputs, no input
has a count left for `m`. -/
theorem sum_countOf_advance_self (ins : List Bucket) (m : Nat) (hm : minHead ins = some m)
    (hs : ∀ b ∈ ins, Bucket.sorted b) :
    ((advance m ins).map (Bucket.countOf m)).sum = 0 := by
  have habove := advance_above ins m hm hs
  have hzero : (advance m ins).map (Bucket.countOf m) = (advance m ins).map (fun _ => 0) :=
    List.map_congr_left (fun b hb =>
      countOf_eq_zero m b (fun e he => by have := habove b hb e he; omega))
  rw [hzero]
  simp

theorem sorted_advance (m : Nat) (ins : List Bucket) (hs : ∀ b ∈ ins, Bucket.sorted b) :
    ∀ b ∈ advance m ins, Bucket.sorted b := by
  intro b1 hb1
  simp only [advance, List.mem_map] at hb1
  obtain ⟨b, hb, rfl⟩ := hb1
  exact sorted_advanceOne m b (hs b hb)

/-- The scan of sorted inputs gives every suffix the sum of its counts in the
inputs, saturated at `maxCount`. -/
theorem countOf_scanAdd (maxCount k : Nat) : ∀ (fuel : Nat) (ins : List Bucket),
    totalEntries ins ≤ fuel → (∀ b ∈ ins, Bucket.sorted b) →
    Bucket.countOf k (scanAdd maxCount fuel ins)
      = Nat.min (ins.map (Bucket.countOf k)).sum maxCount := by
  have hnone : ∀ ins : List Bucket, minHead ins = none →
      (ins.map (Bucket.countOf k)).sum = 0 := by
    intro ins hm
    have hall := minHead_none ins hm
    have : ins.map (Bucket.countOf k) = ins.map (fun _ => 0) :=
      List.map_congr_left (fun b hb => by rw [hall b hb]; rfl)
    rw [this]
    simp
  intro fuel
  induction fuel with
  | zero =>
    intro ins h _
    cases hm : minHead ins with
    | none =>
      rw [hnone ins hm]
      simp [scanAdd, countOf_nil]
    | some m =>
      have := totalEntries_advance_lt ins m hm
      omega
  | succ fuel ih =>
    intro ins h hs
    simp only [scanAdd]
    cases hm : minHead ins with
    | none =>
      rw [hnone ins hm]
      simp [countOf_nil]
    | some m =>
      have hlt := totalEntries_advance_lt ins m hm
      simp only [countOf_cons]
      rw [ih (advance m ins) (by omega) (sorted_advance m ins hs), sum_countOf_advance m k ins]
      by_cases hmk : m = k
      · subst hmk
        rw [sum_countOf_advance_self ins m hm hs]
        simp [sumHeads]
      · simp [hmk]

/-- No count in the output of the scan is above `maxCount`. -/
theorem scanAdd_count_le (maxCount : Nat) : ∀ (fuel : Nat) (ins : List Bucket),
    ∀ e ∈ scanAdd maxCount fuel ins, e.count ≤ maxCount := by
  intro fuel
  induction fuel with
  | zero => intro ins e he; simp [scanAdd] at he
  | succ fuel ih =>
    intro ins e he
    simp only [scanAdd] at he
    cases hm : minHead ins with
    | none => rw [hm] at he; simp at he
    | some m =>
      rw [hm] at he
      rcases List.mem_cons.mp he with h0 | h1
      · rw [h0]
        exact Nat.min_le_right _ _
      · exact ih (advance m ins) e h1

/-- The scan of sorted inputs is sorted by suffix, with unique suffixes. -/
theorem scanAdd_sorted (maxCount : Nat) : ∀ (fuel : Nat) (ins : List Bucket),
    (∀ b ∈ ins, Bucket.sorted b) → Bucket.sorted (scanAdd maxCount fuel ins) := by
  intro fuel
  induction fuel with
  | zero => intro ins _; simp [scanAdd, Bucket.sorted]
  | succ fuel ih =>
    intro ins hs
    simp only [scanAdd]
    cases hm : minHead ins with
    | none => simp [Bucket.sorted]
    | some m =>
      have hs1 : ∀ b ∈ advance m ins, Bucket.sorted b := sorted_advance m ins hs
      refine List.pairwise_cons.mpr ⟨?_, ih (advance m ins) hs1⟩
      intro e he
      obtain ⟨b, hb, e1, he1, hse⟩ := scanAdd_suffix_mem maxCount fuel (advance m ins) e he
      have := advance_above ins m hm hs b hb e1 he1
      show m < e.suffix
      omega

theorem minHead_pair (a b : Bucket) : minHead [a, b] = minHead [b, a] := by
  cases a <;> cases b <;> simp [minHead, min_comm]

/-- The scan of two inputs does not depend on their order. -/
theorem scanAdd_swap (maxCount : Nat) : ∀ (fuel : Nat) (a b : Bucket),
    scanAdd maxCount fuel [a, b] = scanAdd maxCount fuel [b, a] := by
  intro fuel
  induction fuel with
  | zero => intro a b; rfl
  | succ fuel ih =>
    intro a b
    simp only [scanAdd]
    rw [minHead_pair a b]
    cases minHead [b, a] with
    | none => rfl
    | some m =>
      have hsum : sumHeads maxCount m [a, b] = sumHeads maxCount m [b, a] := by
        simp [sumHeads, Nat.add_comm]
      have hadv : advance m [a, b] = [advanceOne m a, advanceOne m b] := rfl
      have hadv1 : advance m [b, a] = [advanceOne m b, advanceOne m a] := rfl
      simp only [hsum, hadv, hadv1, ih]

theorem combineBucketAdd_swap (maxCount : Nat) (a b : Bucket) :
    combineBucketAdd maxCount [a, b] = combineBucketAdd maxCount [b, a] := by
  have ht : totalEntries [a, b] = totalEntries [b, a] := by
    simp [totalEntries, Nat.add_comm]
  simp only [combineBucketAdd, ht, scanAdd_swap]

theorem compatible_symm (x y : PersistedIndex) : x.compatible y = y.compatible x := by
  simp only [PersistedIndex.compatible]
  rw [Bool.eq_iff_iff]
  simp only [Bool.and_eq_true, beq_iff_eq]
  constructor <;> rintro ⟨⟨h1, h2⟩, h3⟩ <;> exact ⟨⟨h1.symm, h2.symm⟩, h3.symm⟩


theorem sorted_bucket_of_wellFormed (X : PersistedIndex) (hX : X.wellFormed) (i : Nat) :
    Bucket.sorted (X.bucket i) := by
  unfold PersistedIndex.bucket
  rw [List.getD_eq_getElem?_getD]
  cases hget : X.buckets[i]? with
  | none => simp [Bucket.sorted]
  | some c =>
    obtain ⟨hi1, hci⟩ := List.getElem?_eq_some.mp hget
    simp only [Option.getD_some]
    exact hX.2 c (by rw [← hci]; exact List.getElem_mem _)

/-- C4, as amended: `combine(add, [A, B])` equals `combine(add, [B, A])` for every
pair of indexes; incompatible inputs fail with `IncompatibleIndex` and
compatible inputs of which one is not well-formed with `CorruptIndex`; for
compatible well-formed `A` and `B` the output is a well-formed index with the
shared plan in which, at every bucket index, a suffix has an entry exactly when
it has one in `A` or in `B`, and its count is the sum of its counts in `A` and
in `B` saturated at the configured maximum `maxCount`. -/
theorem combine_add_commutative (maxCount : Nat) (A B : PersistedIndex) :
    combineAdd maxCount [A, B] = combineAdd maxCount [B, A] ∧
    (A.compatible B = false →
      combineAdd maxCount [A, B] = .error .IncompatibleIndex) ∧
    (A.compatible B = true → ¬ (A.wellFormed ∧ B.wellFormed) →
      combineAdd maxCount [A, B] = .error .CorruptIndex) ∧
    (A.compatible B = true → A.wellFormed → B.wellFormed →
      ∃ out, combineAdd maxCount [A, B] = .ok out ∧ out.plan = A.plan ∧
        out.wordLength = A.wordLength ∧ out.strandMode = A.strandMode ∧
        out.wellFormed ∧
        (∀ b ∈ out.buckets, ∀ e ∈ b, e.count ≤ maxCount) ∧
        (∀ i k, i < 2 ^ A.plan.bucketCountLog2 →
          Bucket.countOf k (out.bucket i)
            = Nat.min (Bucket.countOf k (A.bucket i) + Bucket.countOf k (B.bucket i))
                maxCount ∧
          Bucket.hasKey k (out.bucket i)
            = (Bucket.hasKey k (A.bucket i) || Bucket.hasKey k (B.bucket i)))) := by
  have hunfold : ∀ X Y : PersistedIndex, combineAdd maxCount [X, Y] =
      if X.compatible Y = true then
        if X.wellFormed ∧ Y.wellFormed then
          .ok { plan := X.plan, wordLength := X.wordLength, strandMode := X.strandMode,
                buckets := (List.range (2 ^ X.plan.bucketCountLog2)).map
                  (fun i => combineBucketAdd maxCount [X.bucket i, Y.bucket i]) }
        else .error .CorruptIndex
      else .error .IncompatibleIndex := by
    intro X Y
    simp only [combineAdd, List.all_cons, List.all_nil, Bool.and_true, List.map_cons,
      List.map_nil, Bool.and_eq_true, decide_eq_true_eq]
  refine ⟨?_, ?_, ?_, ?_⟩
  · rw [hunfold A B, hunfold B A, compatible_symm B A]
    by_cases hc : A.compatible B = true
    · have hc1 := hc
      simp only [PersistedIndex.compatible, Bool.and_eq_true, beq_iff_eq] at hc1
      obtain ⟨⟨hp, hw⟩, hsm⟩ := hc1
      by_cases hwf : A.wellFormed ∧ B.wellFormed
      · simp only [hc, if_true, hwf, and_self, hp, hw, hsm, combineBucketAdd_swap]
      · have hwf1 : ¬ (B.wellFormed ∧ A.wellFormed) := fun h => hwf ⟨h.2, h.1⟩
        simp only [hc, if_true, hwf, hwf1, if_false]
    · simp only [hc, if_false, Bool.false_eq_true]
  · intro hc
    rw [hunfold A B]
    simp [hc]
  · intro hc hwf
    rw [hunfold A B]
    simp only [hc, if_true, hwf, if_false]
  · intro hc hA hB
    have hout : combineAdd maxCount [A, B] = .ok
        { plan := A.plan, wordLength := A.wordLength, strandMode := A.strandMode,
          buckets := (List.range (2 ^ A.plan.bucketCountLog2)).map
            (fun i => combineBucketAdd maxCount [A.bucket i, B.bucket i]) } := by
      rw [hunfold A B]
      simp only [hc, if_true, hA, hB, and_self]
    have hsorted : ∀ i, ∀ b1 ∈ [A.bucket i, B.bucket i], Bucket.sorted b1 := by
      intro i b1 hb1
      simp only [List.mem_cons, List.mem_singleton, List.not_mem_nil, or_false] at hb1
      rcases hb1 with h | h
      · rw [h]; exact sorted_bucket_of_wellFormed A hA i
      · rw [h]; exact sorted_bucket_of_wellFormed B hB i
    refine ⟨_, hout, rfl, rfl, rfl, ?_, ?_, ?_⟩
    · refine ⟨by simp, ?_⟩
      intro b hb
      simp only [List.mem_map, List.mem_range] at hb
      obtain ⟨i, _, rfl⟩ := hb
      exact scanAdd_sorted maxCount _ _ (hsorted i)
    · intro b hb e he
      simp only [List.mem_map, List.mem_range] at hb
      obtain ⟨i, _, rfl⟩ := hb
      exact scanAdd_count_le maxCount _ _ e he
    · intro i k hi
      have hb : PersistedIndex.bucket
          { plan := A.plan, wordLength := A.wordLength, strandMode := A.strandMode,
            buckets := (List.range (2 ^ A.plan.bucketCountLog2)).map
              (fun i => combineBucketAdd maxCount [A.bucket i, B.bucket i]) } i
          = combineBucketAdd maxCount [A.bucket i, B.bucket i] := by
        simp [PersistedIndex.bucket, List.getD_eq_getElem?_getD, hi]
      rw [hb]
      constructor
      · rw [combineBucketAdd, countOf_scanAdd maxCount k _ _ (le_refl _) (hsorted i)]
        simp
      · rw [combineBucketAdd, hasKey_scanAdd maxCount k _ _ (le_refl _)]
        simp

/-- A witness for C4, as amended: the spec's two indexes over 3-mers, {AAA:5,
CCC:2} and {AAA:3, GGG:4}, under a plan of 2 bucket bits and 4 suffix bits and a
maximum count of 255, add to {AAA:8, CCC:2, GGG:4} in either order. -/
theorem combine_add_commutative_witness :
    combineAdd 255 [⟨⟨2, 4, 3⟩, 3, .forwardOnly, [[⟨0, 5⟩], [⟨5, 2⟩], [], []]⟩,
        ⟨⟨2, 4, 3⟩, 3, .forwardOnly, [[⟨0, 3⟩], [], [⟨10, 4⟩], []]⟩]
      = .ok ⟨⟨2, 4, 3⟩, 3, .forwardOnly, [[⟨0, 8⟩], [⟨5, 2⟩], [⟨10, 4⟩], []]⟩ ∧
    combineAdd 255 [⟨⟨2, 4, 3⟩, 3, .forwardOnly, [[⟨0, 3⟩], [], [⟨10, 4⟩], []]⟩,
        ⟨⟨2, 4, 3⟩, 3, .forwardOnly, [[⟨0, 5⟩], [⟨5, 2⟩], [], []]⟩]
      = combineAdd 255 [⟨⟨2, 4, 3⟩, 3, .forwardOnly, [[⟨0, 5⟩], [⟨5, 2⟩], [], []]⟩,
        ⟨⟨2, 4, 3⟩, 3, .forwardOnly, [[⟨0, 3⟩], [], [⟨10, 4⟩], []]⟩] :=
  ⟨rfl, (combine_add_commutative 255
    ⟨⟨2, 4, 3⟩, 3, .forwardOnly, [[⟨0, 5⟩], [⟨5, 2⟩], [], []]⟩
    ⟨⟨2, 4, 3⟩, 3, .forwardOnly, [[⟨0, 3⟩], [], [⟨10, 4⟩], []]⟩).1.symm⟩

/-- A counterexample to C4 as stated: with a maximum count of 255, two
compatible well-formed indexes that hold the 1-mer A 200 and 100 times combine
under `add` to an index whose count for it is 255, not the sum 300 of its counts
in the inputs. -/
theorem combine_add_count_not_sum :
    combineAdd 255 [⟨⟨1, 1, 1⟩, 1, .canonical, [[⟨0, 200⟩], []]⟩,
        ⟨⟨1, 1, 1⟩, 1, .canonical, [[⟨0, 100⟩], []]⟩]
      = .ok ⟨⟨1, 1, 1⟩, 1, .canonical, [[⟨0, 255⟩], []]⟩ ∧
    Bucket.countOf 0
        (PersistedIndex.bucket ⟨⟨1, 1, 1⟩, 1, .canonical, [[⟨0, 255⟩], []]⟩ 0)
      ≠ Bucket.countOf 0
          (PersistedIndex.bucket ⟨⟨1, 1, 1⟩, 1, .canonical, [[⟨0, 200⟩], []]⟩ 0)
        + Bucket.countOf 0
          (PersistedIndex.bucket ⟨⟨1, 1, 1⟩, 1, .canonical, [[⟨0, 100⟩], []]⟩ 0) :=
  ⟨rfl, by decide⟩

/-! ## bogart: `operator<` is a strict weak ordering -/

/-- C11: `ufNode::operator<` is a strict weak ordering on all nodes, whatever the
signs of their coordinates: it is irreflexive, asymmetric and transitive, and
two nodes each incomparable with a third are incomparable with each other, as
`std::sort` in `Unitig::sort` requires of its comparator. -/
theorem ufNode_lt_strict_weak_order :
    (∀ a : ufNode, a.lt a = false) ∧
    (∀ a b : ufNode, a.lt b = true → b.lt a = false) ∧
    (∀ a b c : ufNode, a.lt b = true → b.lt c = true → a.lt c = true) ∧
    (∀ a b c : ufNode, (a.lt b = false ∧ b.lt a = false) →
      (b.lt c = false ∧ c.lt b = false) → (a.lt c = false ∧ c.lt a = false)) := by
  refine ⟨?_, ?_, ?_, ?_⟩
  · intro a
    rw [ufNode_lt_eq]
    simp
  · intro a b hab
    rw [ufNode_lt_eq] at hab ⊢
    simp only [decide_eq_true_eq, decide_eq_false_iff_not] at hab ⊢
    omega
  · intro a b c hab hbc
    rw [ufNode_lt_eq] at hab hbc ⊢
    simp only [decide_eq_true_eq] at hab hbc ⊢
    omega
  · intro a b c hab hbc
    obtain ⟨h1, h2⟩ := hab
    obtain ⟨h3, h4⟩ := hbc
    rw [ufNode_lt_eq] at h1 h2 h3 h4
    rw [ufNode_lt_eq, ufNode_lt_eq]
    simp only [decide_eq_false_iff_not] at h1 h2 h3 h4 ⊢
    constructor <;> omega

/-- A witness for C11: a read hanging off the start of the tig over -3..4, a
reverse read over 4..-3 and a read over 4..-3 with another id are pairwise
incomparable, and the read over -3..9 that contains them is less than each. -/
theorem ufNode_lt_strict_weak_order_witness :
    (ufNode.lt ⟨1, 0, 0, 0, 0, ⟨-3, 4⟩⟩ ⟨3, 0, 0, 0, 0, ⟨4, -3⟩⟩ = false ∧
      ufNode.lt ⟨3, 0, 0, 0, 0, ⟨4, -3⟩⟩ ⟨1, 0, 0, 0, 0, ⟨-3, 4⟩⟩ = false) ∧
    ufNode.lt ⟨1, 0, 0, 0, 0, ⟨-3, 4⟩⟩ ⟨4, 0, 0, 0, 0, ⟨-3, 9⟩⟩ = false ∧
    ufNode.lt ⟨4, 0, 0, 0, 0, ⟨-3, 9⟩⟩ ⟨5, 0, 0, 0, 0, ⟨0, 2⟩⟩ = true :=
  ⟨ufNode_lt_strict_weak_order.2.2.2
      ⟨1, 0, 0, 0, 0, ⟨-3, 4⟩⟩ ⟨2, 0, 0, 0, 0, ⟨4, -3⟩⟩ ⟨3, 0, 0, 0, 0, ⟨4, -3⟩⟩
      ⟨by decide, by decide⟩ ⟨by decide, by decide⟩,
   ufNode_lt_strict_weak_order.2.1
      ⟨4, 0, 0, 0, 0, ⟨-3, 9⟩⟩ ⟨1, 0, 0, 0, 0, ⟨-3, 4⟩⟩ (by decide),
   ufNode_lt_strict_weak_order.2.2.1
      ⟨4, 0, 0, 0, 0, ⟨-3, 9⟩⟩ ⟨1, 0, 0, 0, 0, ⟨-3, 4⟩⟩ ⟨5, 0, 0, 0, 0, ⟨0, 2⟩⟩
      (by decide) (by decide)⟩

end Canu
